import Mathlib

/-!
Verification of the module/parameter registry abstraction specified for the
repository `d2l-pytorch` and exercised by the notebook
`src/Ch07_Deep_Learning_Computation/Parameter_Management.ipynb`.

The notebook itself only calls into the deep-learning framework; the
framework's implementation of module trees, `apply`, `state_dict`
(`flatten`), `add_module` (`attach`), forward evaluation and the built-in
initializer functions is not part of the repository source, so those
operations are modelled here from the specification's words, and the
notebook's concrete constructions (the shared block, the custom bimodal
rule, the direct entry assignment) are embedded on top of that model.

Conventions of the embedding:
- tensor values are matrices of rationals (`Values`), except for
  `xavier_uniform`, whose bound `sqrt (6 / (fanIn + fanOut))` is irrational
  and which is therefore modelled over the reals;
- parameter identity is a natural number `pid` into a mutable `Store`;
  module identity is a natural number `mid` carried by each node, and a
  shared attachment is the same subtree (same `mid`) appearing at two
  places in the tree;
- random sampling is made explicit: a `Rand` source gives the raw draw for
  parameter `pid` at entry `(i, j)`, and a uniform draw on `[lo, hi)` is
  `lo + (hi - lo) * Int.fract draw`.
-/

namespace ParamMgmt

/-- Numeric tensor values of a Parameter: a matrix of rationals. -/
abbrev Values : Type := List (List ℚ)

/-- Parameter store: maps a parameter identity (pid) to its current values. -/
abbrev Store : Type := ℕ → Values

/-- Explicit random source: raw draw for parameter `pid` at entry `(i, j)`. -/
abbrev Rand : Type := ℕ → ℕ → ℕ → ℚ

/-- Modelled from the spec: an Initializer mutates a Parameter's values in
place; here it is a function from the random source, the parameter identity
and the old values to the new values. -/
abbrev Init : Type := Rand → ℕ → Values → Values

/-- Map a function over a row, passing each entry its column index
(starting from `j`). -/
def mapRow {α : Type} (g : ℕ → α → α) : ℕ → List α → List α
  | _, [] => []
  | j, x :: xs => g j x :: mapRow g (j + 1) xs

/-- Map a function over a matrix, passing each entry its row and column
index (rows starting from `i`). -/
def mapMat {α : Type} (g : ℕ → ℕ → α → α) : ℕ → List (List α) → List (List α)
  | _, [] => []
  | i, r :: rs => mapRow (g i) 0 r :: mapMat g (i + 1) rs

/-- Rewrite every entry of a matrix as a function of its position and old
value; the shared elementwise skeleton of all initializers. -/
def fillEntries {α : Type} (g : ℕ → ℕ → α → α) (vs : List (List α)) : List (List α) :=
  mapMat g 0 vs

/-- Shape of a matrix: the list of its row lengths. -/
def shapeOf {α : Type} (vs : List (List α)) : List ℕ :=
  vs.map List.length

/-- Modelled from the spec: `zero` sets all entries to 0. -/
def zeroInit : Init := fun _ _ vs => fillEntries (fun _ _ _ => 0) vs

/-- Modelled from the spec: `constant(c)` sets all entries to `c`. -/
def constantInit (c : ℚ) : Init := fun _ _ vs => fillEntries (fun _ _ _ => c) vs

/-- Modelled from the spec: `uniform(lo, hi)` draws i.i.d. samples from the
uniform distribution on `[lo, hi]`; the draw for entry `(i, j)` is
`lo + (hi - lo) * Int.fract (src pid i j)`. -/
def uniformInit (lo hi : ℚ) : Init := fun src pid vs =>
  fillEntries (fun i j _ => lo + (hi - lo) * Int.fract (src pid i j)) vs

/-- Modelled from the spec: `normal(mean, std)` draws i.i.d. samples from a
normal distribution; the distribution itself lives in the external numeric
collaborator, so the draw is taken raw from the source. -/
def normalInit : Init := fun src pid vs =>
  fillEntries (fun i j _ => src pid i j) vs

/-- The notebook's custom bimodal rule (cell `custom`): first draw every
entry uniformly in `[-10, 10]`, then zero out any entry `x` with
`-5 <= x <= 5`. -/
def customInit : Init := fun src pid vs =>
  fillEntries (fun _ _ x => if -5 ≤ x ∧ x ≤ 5 then 0 else x)
    (uniformInit (-10) 10 src pid vs)

/-- Modelled from the spec: `xavier_uniform` draws from the uniform
distribution on `[-a, a]` with `a = sqrt (6 / (fanIn + fanOut))`, where
`fanOut` and `fanIn` are the weight matrix's two shape dimensions. The
bound is irrational, so this initializer is modelled over real-valued
matrices: the draw for entry `(i, j)` is `a * (2 * Int.fract (src i j) - 1)`. -/
noncomputable def xavier_uniform (src : ℕ → ℕ → ℝ) (vs : List (List ℝ)) :
    List (List ℝ) :=
  let fanOut : ℕ := vs.length
  let fanIn : ℕ := (vs.headD []).length
  fillEntries
    (fun i j _ => Real.sqrt (6 / ((fanIn : ℝ) + (fanOut : ℝ))) *
      (2 * Int.fract (src i j) - 1)) vs

/-- Kind of a Module node: the layer kinds the notebook uses (`nn.Linear`,
`nn.ReLU`, `nn.Sequential`). -/
inductive Kind : Type where
  | linear : Kind
  | relu : Kind
  | seq : Kind
deriving DecidableEq

mutual
/-- Modelled from the spec: a Module is a node with an instance identity
`mid`, a kind, a mapping from parameter name to parameter identity, and a
mapping from child name to child Module (kept in attachment order, which
also serves the Sequential variant's ordered sequence). A shared attachment
is the same subtree (same `mid` and contents) appearing at two places. -/
inductive Module : Type where
  | mk : ℕ → Kind → List (String × ℕ) → Children → Module

/-- The named children of a Module, in attachment order. -/
inductive Children : Type where
  | nil : Children
  | cons : String → Module → Children → Children
end

/-- View the children as a list of (name, child) pairs. -/
def Children.toList : Children → List (String × Module)
  | .nil => []
  | .cons n m rest => (n, m) :: rest.toList

/-- First value bound to `key` in an association list, if any. -/
def lookupKV {β : Type} (key : String) : List (String × β) → Option β
  | [] => none
  | (n, v) :: rest => if n = key then some v else lookupKV key rest

mutual
/-- Modelled from the spec: `flatten` (the notebook's `state_dict`) builds
the dotted-path-to-Parameter mapping by a depth-first traversal; a root
call omits the root's own name. -/
def flatten : Module → List (String × ℕ)
  | .mk _ _ ps cs => ps ++ flattenC cs

/-- Flatten the children of a node, prefixing each child's paths with the
child's attachment name and a dot. -/
def flattenC : Children → List (String × ℕ)
  | .nil => []
  | .cons n m rest =>
      (flatten m).map (fun q => (n ++ "." ++ q.1, q.2)) ++ flattenC rest
end

mutual
/-- Parameter identities reachable from a Module, one occurrence per
attachment path. -/
def pidsM : Module → List ℕ
  | .mk _ _ ps cs => ps.map Prod.snd ++ pidsC cs

/-- Parameter identities reachable from a list of children. -/
def pidsC : Children → List ℕ
  | .nil => []
  | .cons _ m rest => pidsM m ++ pidsC rest
end

mutual
/-- Visited set after a depth-first traversal that dedups by module
identity: a module whose `mid` is already in the set is skipped whole. -/
def visitedM : Module → List ℕ → List ℕ
  | .mk mid _ _ cs, v => if mid ∈ v then v else visitedC cs (mid :: v)

/-- Visited set after traversing a list of children in order. -/
def visitedC : Children → List ℕ → List ℕ
  | .nil, v => v
  | .cons _ m rest, v => visitedC rest (visitedM m v)
end

mutual
/-- Modelled from the spec: the sequence of initializer invocations of
`apply`, as the list of parameter identities handed to the initializer.
The traversal visits every Module exactly once by identity (a `mid`
already in the visited set is skipped) and invokes the initializer on a
module's `weight` Parameter when the module owns one. -/
def logM : Module → List ℕ → List ℕ
  | .mk mid _ ps cs, v =>
      if mid ∈ v then []
      else
        logC cs (mid :: v) ++
          (match lookupKV "weight" ps with
           | some pid => [pid]
           | none => [])

/-- Initializer invocations contributed by a list of children, threading
the visited set left to right. -/
def logC : Children → List ℕ → List ℕ
  | .nil, _ => []
  | .cons _ m rest, v => logM m v ++ logC rest (visitedM m v)
end

/-- Point update of the parameter store: parameter `pid` now holds `v`. -/
def updatePid (σ : Store) (pid : ℕ) (v : Values) : Store :=
  fun q => if q = pid then v else σ q

/-- Run the initializer over a sequence of parameter identities, mutating
each one's values in place in order. -/
def applyFold (init : Init) (src : Rand) (log : List ℕ) (σ : Store) : Store :=
  log.foldl (fun τ pid => updatePid τ pid (init src pid (τ pid))) σ

/-- Modelled from the spec: `apply(module, initializer)` traverses the tree,
visiting every Module exactly once by identity, and invokes the initializer
on each visited module's `weight` Parameter, mutating the store. -/
def applyInit (init : Init) (src : Rand) (m : Module) (σ : Store) : Store :=
  applyFold init src (logM m []) σ

/-- Dot product of two equal-length vectors. -/
def dotQ (r x : List ℚ) : ℚ :=
  (List.zipWith (fun a b => a * b) r x).sum

/-- Matrix-vector product, the linear layer's action on its input. -/
def matVec (w : Values) (x : List ℚ) : List ℚ :=
  w.map (fun row => dotQ row x)

mutual
/-- Modelled from the spec: forward evaluation. A linear module applies its
`weight` matrix to the input; a relu module clamps each entry at 0 from
below; a Sequential feeds the input to its first child and each subsequent
child the prior child's output, in attachment order. -/
def forwardM (σ : Store) : Module → List ℚ → List ℚ
  | .mk _ .linear ps _, x =>
      match lookupKV "weight" ps with
      | some pid => matVec (σ pid) x
      | none => x
  | .mk _ .relu _ _, x => x.map (fun v => max v 0)
  | .mk _ .seq _ cs, x => forwardC σ cs x

/-- Pipe an input through a list of children in attachment order. -/
def forwardC (σ : Store) : Children → List ℚ → List ℚ
  | .nil, x => x
  | .cons _ m rest, x => forwardC σ rest (forwardM σ m x)
end

/-- Names already used under a Module, among its parameters and children. -/
def usedNames : Module → List String
  | .mk _ _ ps cs => ps.map Prod.fst ++ (cs.toList.map Prod.fst)

/-- Error raised when attaching a child under an already-used name. -/
inductive AttachError : Type where
  | DuplicateNameError : AttachError
deriving DecidableEq

/-- Append a named child at the end of the attachment order. -/
def appendChild : Children → String → Module → Children
  | .nil, n, c => .cons n c .nil
  | .cons n0 m0 rest, n, c => .cons n0 m0 (appendChild rest n c)

/-- Modelled from the spec: `attach(parent, name, child)` registers `child`
under `parent` with key `name`; it fails with `DuplicateNameError` if
`name` already exists among the parent's children or parameters. -/
def attach (parent : Module) (nm : String) (child : Module) :
    Except AttachError Module :=
  match parent with
  | .mk mid k ps cs =>
      if nm ∈ usedNames (.mk mid k ps cs) then .error .DuplicateNameError
      else .ok (.mk mid k ps (appendChild cs nm child))

/-- Resolve a dotted path of a tree to the parameter identity it names. -/
def resolve (m : Module) (path : String) : Option ℕ :=
  lookupKV path (flatten m)

/-- Read the values of the Parameter a dotted path resolves to. -/
def readPath (m : Module) (σ : Store) (path : String) : Option Values :=
  (resolve m path).map σ

/-- Mutate the Parameter a dotted path resolves to (no-op on a miss). -/
def writePath (m : Module) (σ : Store) (path : String) (v : Values) : Store :=
  match resolve m path with
  | some pid => updatePid σ pid v
  | none => σ

/-- Elementwise equality comparison of two value matrices (the notebook's
`net[2][0].weight == net[3][0].weight`). -/
def elemEq (a b : Values) : List (List Bool) :=
  List.zipWith (fun r s => List.zipWith (fun x y => x == y) r s) a b

/-- Is a boolean matrix true everywhere? -/
def allTrue (m : List (List Bool)) : Bool :=
  m.all (fun r => r.all (fun b => b))

/-- Constant matrix of a given shape. -/
def mkVals (rows cols : ℕ) (c : ℚ) : Values :=
  List.replicate rows (List.replicate cols c)

/-! Concrete constructions from the notebook's tied-parameter cell:
`shared = Sequential(linear_shared = Linear(8, 8, bias = False), relu_shared = ReLU())`
attached at positions 2 and 3 of a five-child Sequential. Parameter
identities: 0 for the first linear's weight (shape 8 x 20), 1 for the
shared linear's weight (shape 8 x 8), 2 for the last linear's weight
(shape 10 x 8). -/

/-- First layer `nn.Linear(20, 8, bias = False)`, weight pid 0. -/
def linFirst : Module := .mk 0 .linear [("weight", 0)] .nil

/-- The plain ReLU between the first layer and the shared block. -/
def reluPlain : Module := .mk 1 .relu [] .nil

/-- The shared block's `nn.Linear(8, 8, bias = False)`, weight pid 1. -/
def linSharedInner : Module := .mk 3 .linear [("weight", 1)] .nil

/-- The shared block's ReLU. -/
def reluSharedInner : Module := .mk 4 .relu [] .nil

/-- The notebook's `shared` Sequential block. -/
def sharedBlock : Module :=
  .mk 2 .seq []
    (.cons "linear_shared" linSharedInner (.cons "relu_shared" reluSharedInner .nil))

/-- Last layer `nn.Linear(8, 10, bias = False)`, weight pid 2. -/
def linLast : Module := .mk 5 .linear [("weight", 2)] .nil

/-- The notebook's tied-parameter net: the same `sharedBlock` instance
attached at positions 2 and 3 among five children. -/
def netShared : Module :=
  .mk 6 .seq []
    (.cons "0" linFirst
      (.cons "1" reluPlain
        (.cons "2" sharedBlock
          (.cons "3" sharedBlock
            (.cons "4" linLast .nil)))))

/-- Initial store for `netShared`: zero matrices of the notebook's shapes. -/
def storeShared : Store := fun pid =>
  if pid = 0 then mkVals 8 20 0
  else if pid = 1 then mkVals 8 8 0
  else if pid = 2 then mkVals 10 8 0
  else []

/-- A concrete all-zeros random source. -/
def srcZero : Rand := fun _ _ _ => 0

/-- A concrete all-one-half random source. -/
def srcHalf : Rand := fun _ _ _ => 1 / 2

/-- A single linear module (weight pid 0), for concrete calculations. -/
def mSingle : Module := .mk 0 .linear [("weight", 0)] .nil

/-- Store holding a 1 x 1 zero matrix at every pid. -/
def storeSingle : Store := fun _ => [[0]]

/-- Set entry `j` of a row to `c` (out-of-range index leaves it unchanged). -/
def setRow : List ℚ → ℕ → ℚ → List ℚ
  | [], _, _ => []
  | _ :: xs, 0, c => c :: xs
  | x :: xs, n + 1, c => x :: setRow xs n c

/-- The notebook's direct entry assignment `weight.data[i][j] = c`. -/
def setEntry : Values → ℕ → ℕ → ℚ → Values
  | [], _, _, _ => []
  | r :: rs, 0, j, c => setRow r j c :: rs
  | r :: rs, i + 1, j, c => r :: setEntry rs i j c

/-- Read entry `(i, j)` of a value matrix (0 when out of range). -/
def entryAt (vs : Values) (i j : ℕ) : ℚ :=
  (vs.getD i []).getD j 0

/-- Specification-level characterization of reachability: `PathTo m p pid`
holds when dotted path `p`, built by depth-first descent from `m` joining
attachment names with a dot, reaches the Parameter with identity `pid`. -/
inductive PathTo : Module → String → ℕ → Prop where
  | here (mid : ℕ) (k : Kind) (ps : List (String × ℕ)) (cs : Children)
      (n : String) (pid : ℕ) (h : (n, pid) ∈ ps) :
      PathTo (.mk mid k ps cs) n pid
  | child (mid : ℕ) (k : Kind) (ps : List (String × ℕ)) (cs : Children)
      (n : String) (c : Module) (q : String) (pid : ℕ)
      (hc : (n, c) ∈ cs.toList) (hp : PathTo c q pid) :
      PathTo (.mk mid k ps cs) (n ++ "." ++ q) pid

/-- A 2 x 2 linear module (weight pid 5) for the forward-evaluation check. -/
def linDemo : Module := .mk 10 .linear [("weight", 5)] .nil

/-- A ReLU module for the forward-evaluation check. -/
def reluDemo : Module := .mk 11 .relu [] .nil

/-- A two-stage Sequential (linear then relu). -/
def netDemo : Module := .mk 12 .seq [] (.cons "0" linDemo (.cons "1" reluDemo .nil))

/-- A store for `netDemo`; off-tree pids hold `[[5]]`. -/
def storeA : Store := fun p => if p = 5 then [[1, 2], [3, 4]] else [[5]]

/-- A second store agreeing with `storeA` on the tree's pids only. -/
def storeB : Store := fun p => if p = 5 then [[1, 2], [3, 4]] else [[6]]

/-- A parent whose only child is attached under the name `"a"`. -/
def parentDemo : Module := .mk 20 .seq [] (.cons "a" reluDemo .nil)

/-! Helper lemmas about the elementwise matrix skeleton. -/

theorem mem_mapRow {α : Type} (g : ℕ → α → α) (xs : List α) :
    ∀ j x, x ∈ mapRow g j xs → ∃ k y, y ∈ xs ∧ x = g k y := by
  induction xs with
  | nil => intro j x hx; simp [mapRow] at hx
  | cons a as ih =>
      intro j x hx
      rw [mapRow] at hx
      rcases List.mem_cons.mp hx with h | h
      · exact ⟨j, a, List.mem_cons_self a as, h⟩
      · obtain ⟨k, y, hy, he⟩ := ih (j + 1) x h
        exact ⟨k, y, List.mem_cons_of_mem _ hy, he⟩

theorem mem_mapMat {α : Type} (g : ℕ → ℕ → α → α) (vs : List (List α)) :
    ∀ i row, row ∈ mapMat g i vs →
      ∃ k r, r ∈ vs ∧ row = mapRow (g k) 0 r := by
  induction vs with
  | nil => intro i row h; simp [mapMat] at h
  | cons r rs ih =>
      intro i row h
      rw [mapMat] at h
      rcases List.mem_cons.mp h with h | h
      · exact ⟨i, r, List.mem_cons_self r rs, h⟩
      · obtain ⟨k, r0, hr0, he⟩ := ih (i + 1) row h
        exact ⟨k, r0, List.mem_cons_of_mem _ hr0, he⟩

theorem mapRow_mapRow {α : Type} (g h : ℕ → α → α) (xs : List α) :
    ∀ j, mapRow g j (mapRow h j xs) = mapRow (fun k x => g k (h k x)) j xs := by
  induction xs with
  | nil => intro j; rfl
  | cons a as ih => intro j; simp [mapRow, ih]

theorem mapMat_mapMat {α : Type} (g h : ℕ → ℕ → α → α) (vs : List (List α)) :
    ∀ i, mapMat g i (mapMat h i vs) =
      mapMat (fun a b x => g a b (h a b x)) i vs := by
  induction vs with
  | nil => intro i; rfl
  | cons r rs ih => intro i; simp [mapMat, ih, mapRow_mapRow]

theorem length_mapRow {α : Type} (g : ℕ → α → α) (xs : List α) :
    ∀ j, (mapRow g j xs).length = xs.length := by
  induction xs with
  | nil => intro j; rfl
  | cons a as ih => intro j; simp [mapRow, ih]

theorem shapeOf_mapMat {α : Type} (g : ℕ → ℕ → α → α) (vs : List (List α)) :
    ∀ i, shapeOf (mapMat g i vs) = shapeOf vs := by
  induction vs with
  | nil => intro i; rfl
  | cons r rs ih =>
      intro i
      simp only [mapMat, shapeOf, List.map_cons, length_mapRow]
      have := ih (i + 1)
      simp only [shapeOf] at this
      rw [this]

/-- C4. Xavier bound: every entry of a weight initialized with
`xavier_uniform` lies in `[-a, a]` where `a = sqrt (6 / (fan_in + fan_out))`
and `fan_in`, `fan_out` are the weight matrix's two shape dimensions. -/
theorem xavier_bound (src : ℕ → ℕ → ℝ) (vs : List (List ℝ)) (a : ℝ)
    (ha : a = Real.sqrt (6 / (((vs.headD []).length : ℝ) + (vs.length : ℝ))))
    (row : List ℝ) (hrow : row ∈ xavier_uniform src vs)
    (x : ℝ) (hx : x ∈ row) : -a ≤ x ∧ x ≤ a := by
  rw [xavier_uniform, fillEntries] at hrow
  obtain ⟨k, r, _, hre⟩ := mem_mapMat _ _ _ _ hrow
  subst hre
  obtain ⟨k2, y, _, hxe⟩ := mem_mapRow _ _ _ _ hx
  subst hxe
  have hs : (0 : ℝ) ≤ a := by
    rw [ha]; exact Real.sqrt_nonneg _
  have hf0 : (0 : ℝ) ≤ Int.fract (src k k2) := Int.fract_nonneg _
  have hf1 : Int.fract (src k k2) < 1 := Int.fract_lt_one _
  rw [← ha]
  constructor
  · nlinarith
  · nlinarith

/-- Feeds `xavier_bound` a concrete 1 x 1 weight. -/
theorem xavier_bound_witness :
    -(Real.sqrt (6 / 2)) ≤
        Real.sqrt (6 / (1 + 1)) * (2 * Int.fract (0 : ℝ) - 1) ∧
      Real.sqrt (6 / (1 + 1)) * (2 * Int.fract (0 : ℝ) - 1) ≤
        Real.sqrt (6 / 2) :=
  xavier_bound (fun _ _ => 0) [[(0 : ℝ)]] (Real.sqrt (6 / 2))
    (by norm_num)
    [Real.sqrt (6 / (1 + 1)) * (2 * Int.fract (0 : ℝ) - 1)]
    (by simp [xavier_uniform, fillEntries, mapMat, mapRow])
    _ (List.mem_singleton.mpr rfl)

/-- C5. Bimodal custom initializer: after the notebook's custom rule (draw
uniformly in `[-10, 10]`, then zero out entries of magnitude at most 5),
every entry is either exactly 0 or has magnitude strictly greater than 5
and at most 10. -/
theorem bimodal_custom (src : Rand) (pid : ℕ) (vs : Values)
    (row : List ℚ) (hrow : row ∈ customInit src pid vs)
    (x : ℚ) (hx : x ∈ row) : x = 0 ∨ (5 < |x| ∧ |x| ≤ 10) := by
  rw [customInit, uniformInit, fillEntries, fillEntries, mapMat_mapMat] at hrow
  obtain ⟨k, r, _, hre⟩ := mem_mapMat _ _ _ _ hrow
  subst hre
  obtain ⟨k2, y, _, hxe⟩ := mem_mapRow _ _ _ _ hx
  have hf0 : (0 : ℚ) ≤ Int.fract (src pid k k2) := Int.fract_nonneg _
  have hf1 : Int.fract (src pid k k2) < 1 := Int.fract_lt_one _
  set u : ℚ := -10 + (10 - -10) * Int.fract (src pid k k2) with hu
  have hul : (-10 : ℚ) ≤ u := by rw [hu]; nlinarith
  have hur : u < 10 := by rw [hu]; nlinarith
  by_cases hcase : -5 ≤ u ∧ u ≤ 5
  · left
    rw [hxe]
    simp [hcase]
  · right
    have hxu : x = u := by rw [hxe]; simp [hcase]
    rw [Decidable.not_and_iff_or_not] at hcase
    constructor
    · rcases hcase with h | h
      · push_neg at h
        rw [hxu]
        exact lt_abs.mpr (Or.inr (by linarith))
      · push_neg at h
        rw [hxu]
        exact lt_abs.mpr (Or.inl h)
    · rw [hxu]
      exact abs_le.mpr ⟨by linarith, by linarith⟩

/-- Computes the custom rule on a concrete 1 x 1 weight: the draw is `-10`,
which survives the zeroing mask. -/
theorem customInit_concrete : customInit srcZero 0 [[0]] = [[-10]] := by
  norm_num [customInit, uniformInit, fillEntries, mapMat, mapRow, srcZero]

/-- Feeds `bimodal_custom` a concrete 1 x 1 weight, whose single drawn
entry is `-10`. -/
theorem bimodal_custom_witness :
    (-10 : ℚ) = 0 ∨ (5 < |(-10 : ℚ)| ∧ |(-10 : ℚ)| ≤ 10) :=
  bimodal_custom srcZero 0 [[0]] [-10]
    (by rw [customInit_concrete]; exact List.mem_singleton.mpr rfl)
    (-10) (List.mem_singleton.mpr rfl)

theorem shapeOf_fillEntries {α : Type} (g : ℕ → ℕ → α → α) (vs : List (List α)) :
    shapeOf (fillEntries g vs) = shapeOf vs :=
  shapeOf_mapMat g vs 0

theorem applyFold_cons (init : Init) (src : Rand) (q : ℕ) (rest : List ℕ)
    (σ : Store) :
    applyFold init src (q :: rest) σ =
      applyFold init src rest (updatePid σ q (init src q (σ q))) := rfl

theorem applyFold_shape (init : Init)
    (hinit : ∀ src pid v, shapeOf (init src pid v) = shapeOf v)
    (src : Rand) (log : List ℕ) :
    ∀ σ pid, shapeOf (applyFold init src log σ pid) = shapeOf (σ pid) := by
  induction log with
  | nil => intro σ pid; rfl
  | cons q rest ih =>
      intro σ pid
      rw [applyFold_cons, ih]
      by_cases h : pid = q
      · subst h; simp [updatePid, hinit]
      · simp [updatePid, h]

/-- C9. Shape preservation: applying any of the initializers (zero,
constant, uniform, normal, the custom bimodal rule) over a tree never
changes any Parameter's shape, and `xavier_uniform` likewise preserves the
shape of the matrix it rewrites. -/
theorem shape_preservation :
    (∀ (m : Module) (σ : Store) (src : Rand) (pid : ℕ),
        shapeOf (applyInit zeroInit src m σ pid) = shapeOf (σ pid)) ∧
    (∀ (c : ℚ) (m : Module) (σ : Store) (src : Rand) (pid : ℕ),
        shapeOf (applyInit (constantInit c) src m σ pid) = shapeOf (σ pid)) ∧
    (∀ (lo hi : ℚ) (m : Module) (σ : Store) (src : Rand) (pid : ℕ),
        shapeOf (applyInit (uniformInit lo hi) src m σ pid) = shapeOf (σ pid)) ∧
    (∀ (m : Module) (σ : Store) (src : Rand) (pid : ℕ),
        shapeOf (applyInit normalInit src m σ pid) = shapeOf (σ pid)) ∧
    (∀ (m : Module) (σ : Store) (src : Rand) (pid : ℕ),
        shapeOf (applyInit customInit src m σ pid) = shapeOf (σ pid)) ∧
    (∀ (src : ℕ → ℕ → ℝ) (vs : List (List ℝ)),
        shapeOf (xavier_uniform src vs) = shapeOf vs) := by
  refine ⟨?_, ?_, ?_, ?_, ?_, ?_⟩
  · intro m σ src pid
    exact applyFold_shape _ (fun s p v => shapeOf_fillEntries _ _) src _ σ pid
  · intro c m σ src pid
    exact applyFold_shape _ (fun s p v => shapeOf_fillEntries _ _) src _ σ pid
  · intro lo hi m σ src pid
    exact applyFold_shape _ (fun s p v => shapeOf_fillEntries _ _) src _ σ pid
  · intro m σ src pid
    exact applyFold_shape _ (fun s p v => shapeOf_fillEntries _ _) src _ σ pid
  · intro m σ src pid
    refine applyFold_shape _ (fun s p v => ?_) src _ σ pid
    simp only [customInit, uniformInit, shapeOf_fillEntries]
  · intro src vs
    rw [xavier_uniform]
    exact shapeOf_fillEntries _ _

theorem fillConst_idem (c : ℚ) (v : Values) :
    fillEntries (fun _ _ _ => c) (fillEntries (fun _ _ _ => c) v) =
      fillEntries (fun _ _ _ => c) v := by
  simp only [fillEntries]
  rw [mapMat_mapMat]

theorem applyFold_constant (c : ℚ) (src : Rand) (log : List ℕ) :
    ∀ σ pid, applyFold (constantInit c) src log σ pid =
      if pid ∈ log then fillEntries (fun _ _ _ => c) (σ pid) else σ pid := by
  induction log with
  | nil => intro σ pid; simp [applyFold]
  | cons q rest ih =>
      intro σ pid
      rw [applyFold_cons, ih]
      by_cases hq : pid = q
      · subst hq
        by_cases hr : pid ∈ rest
        · simp [hr, updatePid, constantInit, fillConst_idem]
        · simp [hr, updatePid, constantInit]
      · by_cases hr : pid ∈ rest <;>
          simp [hr, hq, updatePid, List.mem_cons]

theorem mem_fillConst (c : ℚ) (v : Values) (row : List ℚ)
    (hrow : row ∈ fillEntries (fun _ _ _ => c) v) (x : ℚ) (hx : x ∈ row) :
    x = c := by
  rw [fillEntries] at hrow
  obtain ⟨k, r, _, hre⟩ := mem_mapMat _ _ _ _ hrow
  subst hre
  obtain ⟨k2, y, _, hxe⟩ := mem_mapRow _ _ _ _ hx
  exact hxe

theorem fract_half : Int.fract ((1 : ℚ) / 2) = 1 / 2 :=
  Int.fract_eq_self.mpr ⟨by norm_num, by norm_num⟩

theorem uniform_single_zero :
    applyInit (uniformInit 0 1) srcZero mSingle storeSingle 0 = [[0]] := by
  norm_num [applyInit, applyFold, logM, mSingle, lookupKV, uniformInit,
    fillEntries, mapMat, mapRow, updatePid, storeSingle, srcZero]

theorem uniform_single_half :
    applyInit (uniformInit 0 1) srcHalf mSingle
      (applyInit (uniformInit 0 1) srcZero mSingle storeSingle) 0 =
      [[1 / 2]] := by
  rw [show applyInit (uniformInit 0 1) srcHalf mSingle
        (applyInit (uniformInit 0 1) srcZero mSingle storeSingle) =
      applyFold (uniformInit 0 1) srcHalf (logM mSingle [])
        (applyInit (uniformInit 0 1) srcZero mSingle storeSingle) from rfl]
  norm_num [applyFold, logM, mSingle, lookupKV, uniformInit, fillEntries,
    mapMat, mapRow, updatePid, uniform_single_zero, fract_half, srcHalf]

/-- C8. Deterministic constant initialization: a second
`apply(root, constant(c))` leaves every Parameter's values exactly as the
first produced them, and those values are `c` everywhere on the initialized
Parameters; by contrast, a second `apply(root, uniform(lo, hi))` with fresh
randomness yields different sampled values (witnessed concretely). -/
theorem constant_deterministic_uniform_stochastic :
    (∀ (m : Module) (σ : Store) (src1 src2 : Rand) (c : ℚ) (pid : ℕ),
        applyInit (constantInit c) src2 m
            (applyInit (constantInit c) src1 m σ) pid =
          applyInit (constantInit c) src1 m σ pid) ∧
    (∀ (m : Module) (σ : Store) (src : Rand) (c : ℚ) (pid : ℕ),
        pid ∈ logM m [] →
        ∀ row ∈ applyInit (constantInit c) src m σ pid, ∀ x ∈ row, x = c) ∧
    applyInit (uniformInit 0 1) srcHalf mSingle
        (applyInit (uniformInit 0 1) srcZero mSingle storeSingle) 0 ≠
      applyInit (uniformInit 0 1) srcZero mSingle storeSingle 0 := by
  refine ⟨?_, ?_, ?_⟩
  · intro m σ src1 src2 c pid
    simp only [applyInit]
    rw [applyFold_constant, applyFold_constant]
    by_cases h : pid ∈ logM m []
    · simp [h, fillConst_idem]
    · simp [h]
  · intro m σ src c pid hmem row hrow x hx
    rw [applyInit, applyFold_constant] at hrow
    rw [if_pos hmem] at hrow
    exact mem_fillConst c _ row hrow x hx
  · rw [uniform_single_half, uniform_single_zero]
    intro h
    have := List.head_eq_of_cons_eq h
    norm_num at this

/-- Feeds the constant-everywhere part of
`constant_deterministic_uniform_stochastic` the single-linear module. -/
theorem constant_deterministic_witness :
    [(7 : ℚ)] ∈ applyInit (constantInit 7) srcZero mSingle storeSingle 0 ∧
      (7 : ℚ) = 7 :=
  ⟨by decide, constant_deterministic_uniform_stochastic.2.1 mSingle
    storeSingle srcZero 7 0 (by decide) [7] (by decide) 7 (by decide)⟩

theorem setRow_getD_self (r : List ℚ) :
    ∀ j c, j < r.length → (setRow r j c).getD j 0 = c := by
  induction r with
  | nil => intro j c hj; simp at hj
  | cons a as ih =>
      intro j c hj
      cases j with
      | zero => rfl
      | succ n =>
          rw [setRow]
          simpa using ih n c (by simpa using hj)

theorem setRow_getD_other (r : List ℚ) :
    ∀ j j' c, j' ≠ j → (setRow r j c).getD j' 0 = r.getD j' 0 := by
  induction r with
  | nil => intro j j' c _; rfl
  | cons a as ih =>
      intro j j' c hne
      cases j with
      | zero =>
          cases j' with
          | zero => exact absurd rfl hne
          | succ n' => rfl
      | succ n =>
          cases j' with
          | zero => rfl
          | succ n' =>
              rw [setRow]
              simpa using ih n n' c (fun h => hne (by rw [h]))

theorem entryAt_setEntry_self (vs : Values) :
    ∀ i j c, i < vs.length → j < (vs.getD i []).length →
      entryAt (setEntry vs i j c) i j = c := by
  induction vs with
  | nil => intro i j c hi _; simp at hi
  | cons r rs ih =>
      intro i j c hi hj
      cases i with
      | zero =>
          rw [setEntry]
          simp only [entryAt, List.getD_cons_zero]
          exact setRow_getD_self r j c (by simpa using hj)
      | succ n =>
          rw [setEntry]
          simp only [entryAt, List.getD_cons_succ]
          exact ih n j c (by simpa using hi) (by simpa using hj)

theorem entryAt_setEntry_other (vs : Values) :
    ∀ i j i' j' c, ¬(i' = i ∧ j' = j) →
      entryAt (setEntry vs i j c) i' j' = entryAt vs i' j' := by
  induction vs with
  | nil => intro i j i' j' c _; rfl
  | cons r rs ih =>
      intro i j i' j' c hne
      cases i with
      | zero =>
          cases i' with
          | zero =>
              have hj : j' ≠ j := fun h => hne ⟨rfl, h⟩
              rw [setEntry]
              simp only [entryAt, List.getD_cons_zero]
              exact setRow_getD_other r j j' c hj
          | succ n' => rfl
      | succ n =>
          cases i' with
          | zero => rfl
          | succ n' =>
              rw [setEntry]
              simp only [entryAt, List.getD_cons_succ]
              exact ih n j n' j' c (fun h => hne ⟨by rw [h.1], h.2⟩)

/-- C10. Single-entry mutation frame: assigning one entry of a Parameter's
values (the notebook's `m[0].weight.data[0][0] = 42`) sets exactly that
entry, leaves every other entry of that Parameter unchanged, and leaves
every other Parameter in the store unchanged. -/
theorem single_entry_mutation_frame (vs : Values) (i j : ℕ) (c : ℚ)
    (hi : i < vs.length) (hj : j < (vs.getD i []).length) :
    entryAt (setEntry vs i j c) i j = c ∧
    (∀ i' j', ¬(i' = i ∧ j' = j) →
        entryAt (setEntry vs i j c) i' j' = entryAt vs i' j') ∧
    (∀ (σ : Store) (pid pid' : ℕ), pid' ≠ pid →
        updatePid σ pid (setEntry (σ pid) i j c) pid' = σ pid') := by
  refine ⟨entryAt_setEntry_self vs i j c hi hj,
    fun i' j' h => entryAt_setEntry_other vs i j i' j' c h,
    fun σ pid pid' h => ?_⟩
  simp [updatePid, h]

/-- Feeds `single_entry_mutation_frame` the notebook's `[0][0] = 42`
assignment on a concrete 2 x 2 weight. -/
theorem single_entry_mutation_frame_witness :
    entryAt (setEntry [[1, 2], [3, 4]] 0 0 42) 0 0 = 42 :=
  (single_entry_mutation_frame [[1, 2], [3, 4]] 0 0 42
    (by decide) (by decide)).1

/-- C7. Duplicate-name rejection: attaching a child under a name that
already exists among the parent's children or parameters always fails with
`DuplicateNameError`. -/
theorem duplicate_name_rejection (parent : Module) (nm : String)
    (child : Module) (h : nm ∈ usedNames parent) :
    attach parent nm child = .error .DuplicateNameError := by
  cases parent with
  | mk mid k ps cs =>
      simp only [attach]
      rw [if_pos h]

/-- Feeds `duplicate_name_rejection` a parent that already has a child
named `"a"`. -/
theorem duplicate_name_rejection_witness :
    attach parentDemo "a" reluDemo = .error .DuplicateNameError :=
  duplicate_name_rejection parentDemo "a" reluDemo (by decide)

mutual
theorem visitedM_nodup : ∀ (m : Module) (v : List ℕ), v.Nodup →
    (visitedM m v).Nodup
  | .mk mid k ps cs, v, hv => by
      rw [visitedM]
      by_cases h : mid ∈ v
      · simpa [h] using hv
      · rw [if_neg h]
        exact visitedC_nodup cs (mid :: v) (List.nodup_cons.mpr ⟨h, hv⟩)

theorem visitedC_nodup : ∀ (cs : Children) (v : List ℕ), v.Nodup →
    (visitedC cs v).Nodup
  | .nil, v, hv => by rw [visitedC]; exact hv
  | .cons n m rest, v, hv => by
      rw [visitedC]
      exact visitedC_nodup rest _ (visitedM_nodup m v hv)
end

/-- C2. Single initialization per identity: the `apply` traversal dedups by
module identity (its visited set never repeats an identity), and on the
notebook's net with the shared block attached at positions 2 and 3 the
initializer receives the shared weight (pid 1) exactly once — the
instrumented invocation log is `[0, 1, 2]` and its counter for pid 1 is 1,
not 2. -/
theorem single_initialization_per_identity :
    (∀ m : Module, (visitedM m []).Nodup) ∧
    logM netShared [] = [0, 1, 2] ∧
    (logM netShared []).count 1 = 1 :=
  ⟨fun m => visitedM_nodup m [] List.nodup_nil, by decide, by decide⟩

mutual
theorem mem_flatten : ∀ (m : Module) (p : String) (pid : ℕ),
    (p, pid) ∈ flatten m ↔ PathTo m p pid
  | .mk mid k ps cs, p, pid => by
      rw [flatten]
      constructor
      · intro h
        rcases List.mem_append.mp h with h | h
        · exact PathTo.here mid k ps cs p pid h
        · obtain ⟨n, c, q, hc, hq, hp⟩ := (mem_flattenC cs p pid).mp h
          rw [hq]
          exact PathTo.child mid k ps cs n c q pid hc hp
      · intro h
        cases h with
        | here _ _ _ _ _ _ hmem => exact List.mem_append.mpr (Or.inl hmem)
        | child _ _ _ _ n c q _ hc hp =>
            exact List.mem_append.mpr
              (Or.inr ((mem_flattenC cs _ pid).mpr ⟨n, c, q, hc, rfl, hp⟩))

theorem mem_flattenC : ∀ (cs : Children) (p : String) (pid : ℕ),
    (p, pid) ∈ flattenC cs ↔
      ∃ n c q, (n, c) ∈ cs.toList ∧ p = n ++ "." ++ q ∧ PathTo c q pid
  | .nil, p, pid => by
      rw [flattenC]
      simp [Children.toList]
  | .cons n m rest, p, pid => by
      rw [flattenC]
      constructor
      · intro h
        rcases List.mem_append.mp h with h | h
        · obtain ⟨⟨q, pid2⟩, hq, he⟩ := List.mem_map.mp h
          cases he
          exact ⟨n, m, q, by simp [Children.toList],
            rfl, (mem_flatten m q pid2).mp hq⟩
        · obtain ⟨n2, c, q, hc, hp, hpath⟩ := (mem_flattenC rest p pid).mp h
          exact ⟨n2, c, q, by simp [Children.toList, hc], hp, hpath⟩
      · intro h
        obtain ⟨n2, c, q, hc, hp, hpath⟩ := h
        rw [Children.toList] at hc
        rcases List.mem_cons.mp hc with h2 | h2
        · obtain ⟨he1, he2⟩ := Prod.mk.injEq n2 c n m |>.mp h2
          refine List.mem_append.mpr (Or.inl (List.mem_map.mpr
            ⟨(q, pid), (mem_flatten m q pid).mpr (he2 ▸ hpath), ?_⟩))
          rw [hp, he1]
        · exact List.mem_append.mpr
            (Or.inr ((mem_flattenC rest p pid).mpr ⟨n2, c, q, h2, hp, hpath⟩))
end

/-- C3. Flatten completeness: `flatten` (the notebook's `state_dict`)
returns exactly the dotted paths reachable by depth-first descent from the
root (characterized by `PathTo`); an empty tree yields an empty mapping
with no error; and on the notebook's tied net the same shared Parameter
appears under two distinct keys mapping to the same identity, so the map
has 4 entries (one per attachment path) over only 3 distinct identities. -/
theorem flatten_completeness :
    (∀ (m : Module) (p : String) (pid : ℕ),
        (p, pid) ∈ flatten m ↔ PathTo m p pid) ∧
    (∀ (mid : ℕ) (k : Kind), flatten (.mk mid k [] .nil) = []) ∧
    flatten netShared =
      [("0.weight", 0), ("2.linear_shared.weight", 1),
        ("3.linear_shared.weight", 1), ("4.weight", 2)] ∧
    (flatten netShared).length = 4 ∧
    ((flatten netShared).map Prod.snd).dedup.length = 3 ∧
    resolve netShared "2.linear_shared.weight" = some 1 ∧
    resolve netShared "3.linear_shared.weight" = some 1 :=
  ⟨mem_flatten, fun mid k => rfl, by decide, by decide, by decide,
    by decide, by decide⟩

theorem lookupKV_mem {β : Type} (key : String) (ps : List (String × β)) :
    ∀ v, lookupKV key ps = some v → v ∈ ps.map Prod.snd := by
  induction ps with
  | nil => intro v h; simp [lookupKV] at h
  | cons a as ih =>
      intro v h
      obtain ⟨n, w⟩ := a
      rw [lookupKV] at h
      by_cases he : n = key
      · rw [if_pos he] at h
        injection h with hwv
        exact List.mem_map.mpr ⟨(n, w), List.mem_cons_self _ _, hwv⟩
      · rw [if_neg he] at h
        exact List.mem_cons_of_mem _ (ih v h)

mutual
theorem forwardM_congr : ∀ (m : Module) (σ1 σ2 : Store) (x : List ℚ),
    (∀ pid ∈ pidsM m, σ1 pid = σ2 pid) → forwardM σ1 m x = forwardM σ2 m x
  | .mk mid .linear ps cs, σ1, σ2, x, h => by
      rw [forwardM, forwardM]
      cases hl : lookupKV "weight" ps with
      | none => rfl
      | some pid =>
          have hmem : pid ∈ pidsM (.mk mid .linear ps cs) := by
            rw [pidsM]
            exact List.mem_append.mpr (Or.inl (lookupKV_mem "weight" ps pid hl))
          show matVec (σ1 pid) x = matVec (σ2 pid) x
          rw [h pid hmem]
  | .mk mid .relu ps cs, σ1, σ2, x, h => rfl
  | .mk mid .seq ps cs, σ1, σ2, x, h => by
      rw [forwardM, forwardM]
      exact forwardC_congr cs σ1 σ2 x (fun pid hp => h pid (by
        rw [pidsM]; exact List.mem_append.mpr (Or.inr hp)))

theorem forwardC_congr : ∀ (cs : Children) (σ1 σ2 : Store) (x : List ℚ),
    (∀ pid ∈ pidsC cs, σ1 pid = σ2 pid) → forwardC σ1 cs x = forwardC σ2 cs x
  | .nil, σ1, σ2, x, h => rfl
  | .cons n m rest, σ1, σ2, x, h => by
      rw [forwardC, forwardC]
      rw [forwardM_congr m σ1 σ2 x (fun pid hp => h pid (by
        rw [pidsC]; exact List.mem_append.mpr (Or.inl hp)))]
      exact forwardC_congr rest σ1 σ2 _ (fun pid hp => h pid (by
        rw [pidsC]; exact List.mem_append.mpr (Or.inr hp)))
end

/-- C6. Sequential forward evaluation: a Sequential feeds the input to its
first child and each subsequent child the prior child's output, in
attachment order (an empty Sequential is the identity), and the result is a
pure function of the tree, the current Parameter values and the input: two
stores agreeing on every Parameter of the tree evaluate identically. -/
theorem sequential_forward_eval :
    (∀ (σ : Store) (mid : ℕ) (ps : List (String × ℕ)) (n : String)
        (m : Module) (rest : Children) (x : List ℚ),
        forwardM σ (.mk mid .seq ps (.cons n m rest)) x =
          forwardC σ rest (forwardM σ m x)) ∧
    (∀ (σ : Store) (mid : ℕ) (ps : List (String × ℕ)) (x : List ℚ),
        forwardM σ (.mk mid .seq ps .nil) x = x) ∧
    (∀ (σ1 σ2 : Store) (m : Module) (x : List ℚ),
        (∀ pid ∈ pidsM m, σ1 pid = σ2 pid) →
        forwardM σ1 m x = forwardM σ2 m x) :=
  ⟨fun _ _ _ _ _ _ _ => rfl, fun _ _ _ _ => rfl,
    fun σ1 σ2 m x h => forwardM_congr m σ1 σ2 x h⟩

/-- Feeds `sequential_forward_eval` two concrete stores that agree on the
demo net's only Parameter but differ elsewhere. -/
theorem sequential_forward_eval_witness :
    forwardM storeA netDemo [1, -1] = forwardM storeB netDemo [1, -1] :=
  sequential_forward_eval.2.2 storeA storeB netDemo [1, -1] (by decide)

/-- C1. Tied-parameter identity: in the notebook's net with the same
`shared` block attached at positions 2 and 3, both attachment paths resolve
to the same underlying Parameter identity; mutating values through one path
is visible through the other; and after `apply(root, constant(1))` the
elementwise equality comparison of the two resolved Parameters' values is
true everywhere. -/
theorem tied_parameter_identity :
    (resolve netShared "2.linear_shared.weight" =
        resolve netShared "3.linear_shared.weight" ∧
      resolve netShared "2.linear_shared.weight" = some 1) ∧
    (∀ (σ : Store) (v : Values),
        readPath netShared
          (writePath netShared σ "2.linear_shared.weight" v)
          "3.linear_shared.weight" = some v) ∧
    allTrue (elemEq
      ((readPath netShared
          (applyInit (constantInit 1) srcZero netShared storeShared)
          "2.linear_shared.weight").getD [])
      ((readPath netShared
          (applyInit (constantInit 1) srcZero netShared storeShared)
          "3.linear_shared.weight").getD [])) = true := by
  refine ⟨⟨by decide, by decide⟩, ?_, by decide⟩
  intro σ v
  have h2 : resolve netShared "2.linear_shared.weight" = some 1 := by decide
  have h3 : resolve netShared "3.linear_shared.weight" = some 1 := by decide
  rw [readPath, writePath, h2, h3]
  simp [updatePid]

end ParamMgmt
